import Mathlib

/-!
Shallow embedding of hugot's message-dispatch and command-routing core:
the `Message` envelope, the `responseWriter`, command handlers and
`CommandSet` resolution (`List`, `NextCommand`), the per-command invocation
wrapper `runCommandHandler`, and a panic-aware rendering of the dispatch
loop's handler wrappers.  Stateful Go code (pointer mutation of the message
and writer) is rendered by explicit state passing; Go's `error` results are
an `Option HandlerError`; Go map iteration over a `CommandSet` is an
association list whose order stands for one possible iteration order, so
theorems quantify over it.
-/

/-- Go `context.Context` values are only threaded through, never inspected;
an opaque tag suffices. -/
abbrev Ctx := Nat

/-- The error values the command path produces, one constructor per distinct
Go error value or `fmt.Errorf` shape (errors are compared by identity in the
source, which constructor equality mirrors). -/
inductive HandlerError where
  | skipHears
  | unknownCommand
  | badCLI
  | errHelp
  | nextCommand (ctx : Ctx)
  | usage (s : String)
  | missingSubCommand (cmds : String)
  | multipleExactMatches (tok : String)
  | ambiguousCommand (tok : String) (names : List String)
  | noPossibleArgs
  deriving DecidableEq

/-- `ErrNextCommand` wraps a context into the defer-to-sub-command sentinel. -/
def ErrNextCommand (ctx : Ctx) : HandlerError := .nextCommand ctx

/-- The normalized message envelope.  `flagOut` and `flagSetName` stand for
the attached flag-parser state (`flagOut` buffer contents and the name the
fresh `FlagSet` was scoped to). -/
structure Message where
  Channel : String
  From : String
  To : String
  UserID : String
  Private : Bool
  ToBot : Bool
  Text : String
  args : Option (List String)
  flagOut : Option String
  flagSetName : Option String
  deriving DecidableEq

def backslashChar : Char := Char.ofNat 92
def squoteChar : Char := Char.ofNat 39
def dquoteChar : Char := Char.ofNat 34
def tabChar : Char := Char.ofNat 9

/-- Tokenizer state: tokens finished so far, current token (reversed),
whether a current token exists, and the escape/quote modes. -/
structure SWState where
  acc : List String
  buf : List Char
  hasBuf : Bool
  escaped : Bool
  inSingle : Bool
  inDouble : Bool

/-- Modelled from the spec: the third-party shell-words tokenizer the command
path calls (`shellwords.Parse`, not part of the provided sources).  Per the
spec, text is tokenized "with POSIX-shell-like quoting/escaping": words split
on whitespace, single and double quotes group, backslash escapes the next
character, and mismatched quoting or a trailing escape is a tokenization
failure. -/
def shellwordsRun : List Char → SWState → Except String (List String)
  | [], st =>
    if st.escaped || st.inSingle || st.inDouble then .error "invalid command line string"
    else .ok (if st.hasBuf then st.acc ++ [String.mk st.buf.reverse] else st.acc)
  | c :: cs, st =>
    if st.escaped then
      shellwordsRun cs { st with buf := c :: st.buf, hasBuf := true, escaped := false }
    else if st.inSingle then
      if c = squoteChar then shellwordsRun cs { st with inSingle := false }
      else shellwordsRun cs { st with buf := c :: st.buf, hasBuf := true }
    else if st.inDouble then
      if c = dquoteChar then shellwordsRun cs { st with inDouble := false }
      else if c = backslashChar then shellwordsRun cs { st with escaped := true }
      else shellwordsRun cs { st with buf := c :: st.buf, hasBuf := true }
    else if c = backslashChar then shellwordsRun cs { st with escaped := true }
    else if c = squoteChar then shellwordsRun cs { st with inSingle := true, hasBuf := true }
    else if c = dquoteChar then shellwordsRun cs { st with inDouble := true, hasBuf := true }
    else if c = ' ' || c = tabChar then
      if st.hasBuf then
        shellwordsRun cs { st with acc := st.acc ++ [String.mk st.buf.reverse],
                                   buf := [], hasBuf := false }
      else shellwordsRun cs st
    else shellwordsRun cs { st with buf := c :: st.buf, hasBuf := true }

def shellwordsParse (s : String) : Except String (List String) :=
  shellwordsRun s.data ⟨[], [], false, false, false, false⟩

/-- The lazy argument-parse step that appears verbatim in both
`runCommandHandler` and `CommandSet.NextCommand`:
`if m.args == nil { m.args, err = shellwords.Parse(m.Text); if err != nil { return ErrBadCLI } }`. -/
def parseArgsStep (m : Message) : Except HandlerError Message :=
  match m.args with
  | some _ => .ok m
  | none =>
    match shellwordsParse m.Text with
    | .ok v => .ok { m with args := some v }
    | .error _ => .error .badCLI

/-- The concrete `responseWriter`: the bound sender is rendered as the
transcript `sent` of messages delivered through it, beside the mutable
outbound template `msg` and the adapter label `an`. -/
structure responseWriter where
  msg : Message
  an : String
  sent : List Message
  deriving DecidableEq

/-- `Send` delivers one message through the bound sender. -/
def responseWriter.Send (w : responseWriter) (m : Message) : responseWriter :=
  { w with sent := w.sent ++ [m] }

/-- `Write`: every write builds a one-shot message from the current template
with `Text` replaced by the written bytes, sends it immediately, and returns
`(len(bs), nil)`. -/
def responseWriter.Write (w : responseWriter) (bs : String) :
    responseWriter × Nat × Option HandlerError :=
  let nmsg := { w.msg with Text := bs }
  (w.Send nmsg, bs.utf8ByteSize, none)

/-- `SetChannel` mutates the template's channel. -/
def responseWriter.SetChannel (w : responseWriter) (s : String) : responseWriter :=
  { w with msg := { w.msg with Channel := s } }

/-- `SetTo` mutates the template's direct recipient. -/
def responseWriter.SetTo (w : responseWriter) (s : String) : responseWriter :=
  { w with msg := { w.msg with To := s } }

/-- A command handler: base identity plus the `Command` capability function.
Handlers may mutate the writer (sending, template changes) and the message
(argument advancement), so the function returns both updated. -/
structure CommandHandler where
  name : String
  desc : String
  command : Ctx → responseWriter → Message →
    Option HandlerError × responseWriter × Message

instance : Inhabited CommandHandler :=
  ⟨⟨"", "", fun _ w m => (none, w, m)⟩⟩

def CommandHandler.Describe (h : CommandHandler) : String × String := (h.name, h.desc)

/-- A `CommandSet` is a map from command name to handler; the association
list order stands for one Go map iteration order. -/
abbrev CommandSet := List (String × CommandHandler)

/-- The invariant `AddCommandHandler` maintains: keys are unique and each
handler is stored under its own `Describe` name. -/
def CommandSet.WF (cs : CommandSet) : Prop :=
  (cs.map (fun p => p.1)).Nodup ∧ ∀ p ∈ cs, p.2.name = p.1

/-- Go's bytewise `<` on strings, written out as an executable lexicographic
comparison of the scalar values (for valid UTF-8, byte order and scalar-value
order coincide).  `strLt_iff` below identifies it with `String.lt`. -/
def listLt : List Char → List Char → Bool
  | [], [] => false
  | [], _ :: _ => true
  | _ :: _, [] => false
  | a :: as, b :: bs =>
    if a.toNat < b.toNat then true
    else if b.toNat < a.toNat then false
    else listLt as bs

def strLt (a b : String) : Bool := listLt a.data b.data

/-- The `byAlpha` sort helper carrying the three parallel slices. -/
structure byAlpha where
  ns : List String
  ds : List String
  chs : List CommandHandler

/-- `byAlpha.Swap` exactly as written in the source, including the slip in
the middle assignment: after the names are swapped, the Go statement
`b.ds[i], b.ds[j] = b.ns[j], b.ds[i]` stores the (already swapped) name
`b.ns[j]` — i.e. the original `b.ns[i]` — into `b.ds[i]`, and the original
`b.ds[i]` into `b.ds[j]`, losing `b.ds[j]`. -/
def byAlpha.Swap (b : byAlpha) (i j : Nat) : byAlpha :=
  let ni := b.ns.getD i ""
  let nj := b.ns.getD j ""
  let di := b.ds.getD i ""
  let ci := b.chs.getD i default
  let cj := b.chs.getD j default
  { ns := (b.ns.set i nj).set j ni
    ds := (b.ds.set i ni).set j di
    chs := (b.chs.set i cj).set j ci }

/-- `sort.Sort` with `byAlpha.Less`/`byAlpha.Swap`: the inner insertion loop
`for j := i; j > 0 && data.Less(j, j-1); j--  { data.Swap(j, j-1) }`. -/
def innerB : byAlpha → Nat → byAlpha
  | b, 0 => b
  | b, j + 1 =>
    if strLt (b.ns.getD (j + 1) "") (b.ns.getD j "") then innerB (b.Swap (j + 1) j) j else b

/-- The outer loop `for i := 1; i < n; i++`, with fuel for termination. -/
def outerB (n : Nat) : byAlpha → Nat → Nat → byAlpha
  | b, _, 0 => b
  | b, i, fuel + 1 => if i < n then outerB n (innerB b i) (i + 1) fuel else b

/-- `sort.Sort(sorted)`: for the slice lengths arising here this is Go's
insertion sort (its small-slice regime); for the name slice — the only
component whose order any correct comparison sort determines uniquely — the
result coincides with `sort.Sort` at every length. -/
def byAlpha.sortGo (b : byAlpha) : byAlpha := outerB b.ns.length b 1 b.ns.length

/-- `CommandSet.List`: walk the set, put aside any handler describing itself
as "help", sort the rest with `byAlpha`, and surface the help entry first. -/
def CommandSet.List (cs : CommandSet) : List String × List String × List CommandHandler :=
  let entries := cs.map (fun p => p.2)
  let hasHelp := entries.any (fun ch => ch.name == "help")
  let nonHelp := entries.filter (fun ch => ch.name != "help")
  let sorted := byAlpha.sortGo
    ⟨nonHelp.map (fun ch => ch.name), nonHelp.map (fun ch => ch.desc), nonHelp⟩
  if hasHelp then
    let hh := ((cs.find? (fun p => p.1 == "help")).getD ("", default)).2
    ("help" :: sorted.ns, hh.desc :: sorted.ds, hh :: sorted.chs)
  else
    (sorted.ns, sorted.ds, sorted.chs)

/-- Modelled from the spec: `cmdUsage` (defined outside the provided sources)
synthesizes the usage text for handler `h` invoked under `name`; only that a
deterministic usage string is rendered and written matters to the claims. -/
def cmdUsage (h : CommandHandler) (name : String) : String :=
  "usage: " ++ name ++ " - " ++ h.desc

/-- The per-command invocation wrapper `runCommandHandler`: ensure the
argument vector is parsed (`ErrBadCLI` on tokenization failure), reject an
empty vector, attach a fresh flag-parsing context scoped to `args[0]` whose
output goes to an in-memory buffer, invoke the handler, and turn a
`flag.ErrHelp` result into a usage write plus `ErrSkipHears`. -/
def runCommandHandler (ctx : Ctx) (h : CommandHandler) (w : responseWriter)
    (m : Message) : Option HandlerError × responseWriter × Message :=
  match parseArgsStep m with
  | .error e => (some e, w, m)
  | .ok m1 =>
    match m1.args with
    | none => (some .noPossibleArgs, w, m1)
    | some [] => (some .noPossibleArgs, w, m1)
    | some (a0 :: _) =>
      let m2 := { m1 with flagOut := some "", flagSetName := some a0 }
      let res := h.command ctx w m2
      if res.1 = some HandlerError.errHelp then
        (some .skipHears, (responseWriter.Write res.2.1 (cmdUsage h a0)).1, res.2.2)
      else res

/-- `CommandSet.NextCommand`: parse the argument vector if unset, demand a
non-empty vector, compute the exact and first-token-predecessor match sets
over the map, and resolve: unknown / guarded multiple-exact / unique exact /
unique partial / ambiguous listing all partial-match names. -/
def CommandSet.NextCommand (cs : CommandSet) (ctx : Ctx) (w : responseWriter)
    (m : Message) : Option HandlerError × responseWriter × Message :=
  match parseArgsStep m with
  | .error e => (some e, w, m)
  | .ok m1 =>
    match m1.args with
    | none =>
      (some (.missingSubCommand (String.intercalate ", " (CommandSet.List cs).1)), w, m1)
    | some [] =>
      (some (.missingSubCommand (String.intercalate ", " (CommandSet.List cs).1)), w, m1)
    | some (a0 :: _) =>
      let pPairs := cs.filter (fun p => List.isPrefixOf a0.data p.1.data)
      let ePairs := cs.filter (fun p => p.1 == a0)
      let mtchs := pPairs.map (fun p => p.2)
      let matchesns := pPairs.map (fun p => p.1)
      let emtchs := ePairs.map (fun p => p.2)
      if mtchs.length = 0 ∧ emtchs.length = 0 then
        (some .unknownCommand, w, m1)
      else if emtchs.length > 1 then
        (some (.multipleExactMatches a0), w, m1)
      else if emtchs.length = 1 then
        runCommandHandler ctx (emtchs.headD default) w m1
      else if mtchs.length = 1 then
        runCommandHandler ctx (mtchs.headD default) w m1
      else
        (some (.ambiguousCommand a0 matchesns), w, m1)

/-- Modelled from the spec: `Message.Parse` (defined outside the provided
sources) runs the message's flag parsing, which "advances the argument
vector" by consuming the leading argument (the command's own name); flag
handling beyond that is unused by the claims. -/
def Message.Parse (m : Message) : Option HandlerError × Message :=
  match m.args with
  | some (_ :: rest) => (none, { m with args := some rest })
  | _ => (none, m)

/-- The calling convention for command handler functions. -/
abbrev CommandFunc :=
  Ctx → responseWriter → Message → Option HandlerError × responseWriter × Message

/-- `defaultCommandHandler`: parse, then defer to the sub-commands. -/
def defaultCommandHandler : CommandFunc := fun ctx w m =>
  let pr := Message.Parse m
  match pr.1 with
  | some e => (some e, w, pr.2)
  | none => (some (ErrNextCommand ctx), w, pr.2)

/-- The concrete handler type `NewCommandHandler` builds: identity, wrapped
function, and its own sub-command set. -/
structure baseCommandHandler where
  name : String
  desc : String
  bcf : CommandFunc
  subs : CommandSet

/-- `NewCommandHandler` wraps `f` (or the default handler when `f` is nil)
with the given identity and sub-command set. -/
def NewCommandHandler (name desc : String) (f : Option CommandFunc)
    (cs : CommandSet) : baseCommandHandler :=
  { name := name, desc := desc, bcf := f.getD defaultCommandHandler, subs := cs }

/-- `baseCommandHandler.Command`: invoke the wrapped function; unless its
error is the `errNextCommand` sentinel, return its result unchanged;
otherwise resolve the (same, possibly advanced) message against the
handler's own sub-command set under the carried context. -/
def baseCommandHandler.Command (bch : baseCommandHandler) (ctx : Ctx)
    (w : responseWriter) (m : Message) :
    Option HandlerError × responseWriter × Message :=
  let res := bch.bcf ctx w m
  match res.1 with
  | some (.nextCommand ctx2) => CommandSet.NextCommand bch.subs ctx2 res.2.1 res.2.2
  | _ => res

def baseCommandHandler.SubCommands (bch : baseCommandHandler) : CommandSet := bch.subs

/-!
### Panic containment and the dispatch loop

Handler bodies may panic.  A body's run is an `HOutcome`: either a normal
completion or a panic carrying the panic value.  `defer glogPanic()` is the
recovery boundary the source wraps every invocation in; a panic that reaches
the top of a spawned task unrecovered terminates the Go process, which the
sequential loop model renders as a `panicked` result aborting the run.  The
three capability invocations for one message are concurrent and independent
in the source, so the model computes each from the message alone.
-/

inductive HOutcome (α : Type) where
  | ok (a : α)
  | panicked (msg : String)
  deriving DecidableEq

/-- The value of a completed run, or `d` for a panicked one. -/
def HOutcome.valD : HOutcome α → α → α
  | .ok a, _ => a
  | .panicked _, d => d

/-- `defer glogPanic()` around a function body: a panic raised in the body is
recovered (and logged), and the surrounding function returns its zero
value. -/
def deferGlogPanic (zero : α) : HOutcome α → HOutcome α
  | .ok a => .ok a
  | .panicked _ => .ok zero

/-- A raw handler's `ProcessMessage` body (result error is ignored by its
wrapper, so only the panic behaviour matters). -/
structure PRawHandler where
  process : Message → HOutcome Unit

/-- A hears handler: `hearsMatch` is the compiled pattern's
`FindAllStringSubmatch` (nil = `none`), `heard` the handler body. -/
structure PHearsHandler where
  hearsMatch : String → Option (List (List String))
  heard : Message → List (List String) → HOutcome Unit

/-- A command handler body as seen from its wrapper's recovery boundary. -/
structure PCommandHandler where
  command : Message → HOutcome (Option HandlerError)

/-- A background handler's `StartBackground` body. -/
structure PBackgroundHandler where
  start : HOutcome Unit

/-- `runRawHandler`: `defer glogPanic(); h.ProcessMessage(ctx, w, m); return
false` — the body runs inside the recovery boundary and the function always
returns `false`. -/
def runRawHandler (h : PRawHandler) (m : Message) : HOutcome Bool :=
  deferGlogPanic false
    (match h.process m with
     | .ok _ => .ok false
     | .panicked e => .panicked e)

/-- `runHearsHandler`: under its own deferred recovery it evaluates the
pattern and, on a match, spawns `go h.Heard(...)` as a separate task and
returns `true`.  The spawned task (second component) runs outside the
wrapper's recovery boundary. -/
def runHearsHandler (h : PHearsHandler) (m : Message) :
    HOutcome Bool × Option (HOutcome Unit) :=
  match h.hearsMatch m.Text with
  | some mt => (deferGlogPanic false (HOutcome.ok true), some (h.heard m mt))
  | none => (deferGlogPanic false (HOutcome.ok false), none)

/-- The command invocation as seen at the panic boundary: `runCommandHandler`
runs its whole body (including the handler call) under `defer glogPanic()`,
returning the zero value `nil` after a recovered panic. -/
def runCommandHandlerPanicWrap (h : PCommandHandler) (m : Message) :
    HOutcome (Option HandlerError) :=
  deferGlogPanic none (h.command m)

/-- `runBackgroundHandler` spawns the body in a task whose own frame holds
the `defer glogPanic()`. -/
def runBackgroundHandler (h : PBackgroundHandler) : HOutcome Unit :=
  deferGlogPanic () h.start

/-- The subset of capabilities the dispatched top-level handler satisfies. -/
structure PDispatchHandler where
  raw : Option PRawHandler
  hears : Option PHearsHandler
  cmd : Option PCommandHandler

/-- What each capability invocation produced for one message (`none` =
capability absent). -/
structure MsgReport where
  rawRes : Option Bool
  hearsRes : Option Bool
  cmdRes : Option (Option HandlerError)
  deriving DecidableEq

/-- One message's fan-out: each capability invocation is computed from the
message alone (they are concurrent, independent tasks in the source); an
unrecovered panic reaching the top of any of the spawned tasks terminates
the process, rendered as a `panicked` outcome of the whole step. -/
def processMessageP (h : PDispatchHandler) (m : Message) : HOutcome MsgReport :=
  let rawT : HOutcome (Option Bool) :=
    match h.raw with
    | none => .ok none
    | some rh =>
      match runRawHandler rh m with
      | .ok b => .ok (some b)
      | .panicked e => .panicked e
  match rawT with
  | .panicked e => .panicked e
  | .ok rawRes =>
    let hearsT : HOutcome (Option Bool) :=
      match h.hears with
      | none => .ok none
      | some hh =>
        match runHearsHandler hh m with
        | (.ok b, none) => .ok (some b)
        | (.ok b, some (.ok _)) => .ok (some b)
        | (_, some (.panicked e)) => .panicked e
        | (.panicked e, _) => .panicked e
    match hearsT with
    | .panicked e => .panicked e
    | .ok hearsRes =>
      match h.cmd with
      | none => .ok ⟨rawRes, hearsRes, none⟩
      | some ch =>
        match runCommandHandlerPanicWrap ch m with
        | .ok e => .ok ⟨rawRes, hearsRes, some e⟩
        | .panicked e => .panicked e

/-- The report a message yields when no task's panic escapes containment. -/
def processMessageOk (h : PDispatchHandler) (m : Message) : MsgReport :=
  { rawRes := h.raw.map (fun _ => false)
    hearsRes := h.hears.map (fun hh => (hh.hearsMatch m.Text).isSome)
    cmdRes := h.cmd.map (fun ch => (runCommandHandlerPanicWrap ch m).valD none) }

/-- The dispatch loop over the merged inbound stream of one adapter: take the
next message, fan it out, continue; a process-terminating panic aborts the
loop with no later message processed. -/
def loopP (h : PDispatchHandler) : List Message → HOutcome (List MsgReport)
  | [] => .ok []
  | m :: ms =>
    match processMessageP h m with
    | .panicked e => .panicked e
    | .ok r =>
      match loopP h ms with
      | .panicked e => .panicked e
      | .ok rs => .ok (r :: rs)

/-!
### The name slice under `sort.Sort`

`byAlpha.Swap` keeps the `ns` (and `chs`) slices in step but corrupts `ds`;
the lemmas below project the sort onto the name slice and show it computes
an insertion sort, hence a sorted permutation of its input.
-/

def swapNs (l : List String) (i j : Nat) : List String :=
  (l.set i (l.getD j "")).set j (l.getD i "")

def innerNs : List String → Nat → List String
  | l, 0 => l
  | l, j + 1 =>
    if strLt (l.getD (j + 1) "") (l.getD j "") then innerNs (swapNs l (j + 1) j) j else l

def outerNs (n : Nat) : List String → Nat → Nat → List String
  | l, _, 0 => l
  | l, i, fuel + 1 => if i < n then outerNs n (innerNs l i) (i + 1) fuel else l

def sortGoNs (l : List String) : List String := outerNs l.length l 1 l.length

/-- Inserting into a sorted run from the right by adjacent swaps lands the new
element after every entry it is not below. -/
def insertR (x : String) : List String → List String
  | [] => [x]
  | y :: l => if strLt x y then x :: y :: l else y :: insertR x l

def insertAll (s rest : List String) : List String :=
  rest.foldl (fun acc y => insertR y acc) s

theorem Swap_ns (b : byAlpha) (i j : Nat) : (b.Swap i j).ns = swapNs b.ns i j := rfl

theorem innerB_ns : ∀ (j : Nat) (b : byAlpha), (innerB b j).ns = innerNs b.ns j := by
  intro j
  induction j with
  | zero => intro b; rfl
  | succ j ih =>
    intro b
    simp only [innerB, innerNs]
    split
    · rw [ih]; rfl
    · rfl

theorem outerB_ns : ∀ (fuel i n : Nat) (b : byAlpha),
    (outerB n b i fuel).ns = outerNs n b.ns i fuel := by
  intro fuel
  induction fuel with
  | zero => intro i n b; rfl
  | succ fuel ih =>
    intro i n b
    simp only [outerB, outerNs]
    split
    · rw [ih, innerB_ns]
    · rfl

theorem sortGo_ns (b : byAlpha) : b.sortGo.ns = sortGoNs b.ns :=
  outerB_ns b.ns.length 1 b.ns.length b

theorem charLt_iff (a b : Char) : a.toNat < b.toNat ↔ a < b := Iff.rfl

theorem charEq_of_not_lt {a b : Char} (h1 : ¬ a.toNat < b.toNat)
    (h2 : ¬ b.toNat < a.toNat) : a = b :=
  le_antisymm (le_of_not_lt ((charLt_iff b a).not.1 h2))
    (le_of_not_lt ((charLt_iff a b).not.1 h1))

theorem listLt_iff : ∀ as bs : List Char, listLt as bs = true ↔ as < bs
  | [], [] => by
    simp only [listLt]
    exact iff_of_false (by simp) (List.Lex.not_nil_right _ _)
  | [], _ :: _ => iff_of_true (by simp [listLt]) List.Lex.nil
  | a :: as, [] => by
    simp only [listLt]
    exact iff_of_false (by simp) (List.Lex.not_nil_right _ _)
  | a :: as, b :: bs => by
    simp only [listLt]
    split
    · rename_i h
      exact iff_of_true rfl (List.Lex.rel ((charLt_iff a b).1 h))
    · split
      · rename_i h1 h2
        refine iff_of_false (by simp) ?_
        intro hlt
        cases hlt with
        | rel h => exact h1 ((charLt_iff a b).2 h)
        | cons h => exact lt_irrefl _ h2
      · rename_i h1 h2
        have hab : a = b := charEq_of_not_lt h1 h2
        subst hab
        rw [listLt_iff as bs]
        constructor
        · intro h; exact List.Lex.cons h
        · intro h
          cases h with
          | rel h => exact absurd ((charLt_iff a a).2 h) h1
          | cons h => exact h

theorem strLt_iff (a b : String) : strLt a b = true ↔ a < b := by
  rw [String.lt_iff_toList_lt]
  exact listLt_iff a.data b.data

theorem getD_append_len : ∀ (p : List String) (a : String) (q : List String) (d : String),
    (p ++ a :: q).getD p.length d = a := by
  intro p
  induction p with
  | nil => intro a q d; rfl
  | cons x p ih => intro a q d; simpa using ih a q d

theorem getD_append_len_succ (p : List String) (a b : String) (q : List String) (d : String) :
    (p ++ a :: b :: q).getD (p.length + 1) d = b := by
  have h := getD_append_len (p ++ [a]) b q d
  simpa using h

theorem set_append_len : ∀ (p : List String) (a : String) (q : List String) (v : String),
    (p ++ a :: q).set p.length v = p ++ v :: q := by
  intro p
  induction p with
  | nil => intro a q v; rfl
  | cons x p ih => intro a q v; simp [ih a q v]

theorem set_append_len_succ (p : List String) (a b : String) (q : List String) (v : String) :
    (p ++ a :: b :: q).set (p.length + 1) v = p ++ a :: v :: q := by
  have h := set_append_len (p ++ [a]) b q v
  simp only [List.append_assoc, List.singleton_append, List.length_append,
    List.length_singleton] at h
  exact h

theorem swapNs_adj (p : List String) (a b : String) (q : List String) :
    swapNs (p ++ a :: b :: q) (p.length + 1) p.length = p ++ b :: a :: q := by
  unfold swapNs
  rw [getD_append_len, getD_append_len_succ, set_append_len_succ, set_append_len]

theorem insertR_perm (x : String) : ∀ l : List String, List.Perm (insertR x l) (x :: l) := by
  intro l
  induction l with
  | nil => exact List.Perm.refl _
  | cons y l ih =>
    simp only [insertR]
    split
    · exact List.Perm.refl _
    · exact (List.Perm.cons y ih).trans (List.Perm.swap x y l)

theorem insertR_length (x : String) (l : List String) :
    (insertR x l).length = l.length + 1 := by
  simpa using (insertR_perm x l).length_eq

theorem mem_insertR {a x : String} {l : List String} :
    a ∈ insertR x l ↔ a = x ∨ a ∈ l := by
  rw [(insertR_perm x l).mem_iff, List.mem_cons]

theorem insertR_sorted {x : String} : ∀ {l : List String},
    List.Sorted (· ≤ ·) l → List.Sorted (· ≤ ·) (insertR x l) := by
  intro l
  induction l with
  | nil => intro _; simp [insertR]
  | cons y l ih =>
    intro h
    rw [List.sorted_cons] at h
    simp only [insertR]
    split
    · rename_i hx
      have hxy : x < y := (strLt_iff x y).1 hx
      refine List.sorted_cons.2 ⟨?_, List.sorted_cons.2 h⟩
      intro b hb
      rcases List.mem_cons.1 hb with rfl | hb
      · exact le_of_lt hxy
      · exact le_trans (le_of_lt hxy) (h.1 b hb)
    · rename_i hx
      have hyx : y ≤ x := le_of_not_lt (fun hlt => hx ((strLt_iff x y).2 hlt))
      refine List.sorted_cons.2 ⟨?_, ih h.2⟩
      intro b hb
      rcases mem_insertR.1 hb with rfl | hb
      · exact hyx
      · exact h.1 b hb

theorem insertR_append_lt {x z : String} (hxz : x < z) :
    ∀ s : List String, insertR x (s ++ [z]) = insertR x s ++ [z] := by
  intro s
  induction s with
  | nil =>
    simp only [List.nil_append, insertR]
    rw [if_pos ((strLt_iff x z).2 hxz)]
    rfl
  | cons y s ih =>
    have hc : (y :: s) ++ [z] = y :: (s ++ [z]) := rfl
    rw [hc]
    simp only [insertR]
    split
    · rfl
    · show y :: insertR x (s ++ [z]) = y :: insertR x s ++ [z]
      rw [ih, List.cons_append]

theorem insertR_last {x : String} : ∀ {s : List String},
    (∀ y ∈ s, ¬ x < y) → insertR x s = s ++ [x] := by
  intro s
  induction s with
  | nil => intro _; rfl
  | cons y s ih =>
    intro h
    simp only [insertR]
    rw [if_neg (fun hb => h y (List.mem_cons_self y s) ((strLt_iff x y).1 hb)), List.cons_append,
      ih (fun b hb => h b (List.mem_cons_of_mem y hb))]

theorem innerNs_insert : ∀ (s : List String) (x : String) (r : List String),
    List.Sorted (· ≤ ·) s → innerNs (s ++ x :: r) s.length = insertR x s ++ r := by
  intro s
  induction s using List.reverseRecOn with
  | nil => intro x r _; rfl
  | append_singleton s z ih =>
    intro x r hs
    have hsrt : List.Sorted (· ≤ ·) s := ((List.pairwise_append.1 hs).1)
    have hlen : (s ++ [z]).length = s.length + 1 := by simp
    have hl : (s ++ [z]) ++ x :: r = s ++ z :: x :: r := by simp
    rw [hlen, hl]
    simp only [innerNs]
    rw [getD_append_len_succ, getD_append_len]
    by_cases hxz : strLt x z
    · rw [if_pos hxz, swapNs_adj, ih x (z :: r) hsrt,
        insertR_append_lt ((strLt_iff x z).1 hxz) s]
      simp
    · rw [if_neg hxz]
      have hzx : z ≤ x := le_of_not_lt (fun hlt => hxz ((strLt_iff x z).2 hlt))
      have hall : ∀ y ∈ s ++ [z], ¬ x < y := by
        intro y hy
        rcases List.mem_append.1 hy with hy | hy
        · have hyz : y ≤ z := (List.pairwise_append.1 hs).2.2 y hy z (List.mem_singleton_self z)
          exact not_lt.2 (le_trans hyz hzx)
        · rw [List.mem_singleton.1 hy]
          exact not_lt.2 hzx
      rw [insertR_last hall]
      simp

theorem outerNs_stop : ∀ (fuel n : Nat) (l : List String) (i : Nat),
    ¬ i < n → outerNs n l i fuel = l := by
  intro fuel
  cases fuel with
  | zero => intro n l i _; rfl
  | succ fuel =>
    intro n l i h
    simp only [outerNs]
    rw [if_neg h]

theorem outerNs_insert : ∀ (rest : List String) (fuel : Nat) (s : List String),
    rest.length ≤ fuel → List.Sorted (· ≤ ·) s →
    outerNs (s.length + rest.length) (s ++ rest) s.length fuel = insertAll s rest := by
  intro rest
  induction rest with
  | nil =>
    intro fuel s _ _
    simp only [List.length_nil, Nat.add_zero, List.append_nil, insertAll, List.foldl_nil]
    exact outerNs_stop fuel s.length s s.length (lt_irrefl _)
  | cons x rest ih =>
    intro fuel s hfuel hsort
    cases fuel with
    | zero => exact absurd hfuel (by simp)
    | succ f =>
      simp only [outerNs]
      rw [if_pos (by simp : s.length < s.length + (x :: rest).length)]
      rw [innerNs_insert s x rest hsort]
      have hready := ih f (insertR x s)
        (by simpa using Nat.lt_succ_iff.1 (Nat.lt_of_lt_of_le (Nat.lt_succ_self _) hfuel))
        (insertR_sorted hsort)
      rw [insertR_length] at hready
      have hn : s.length + (x :: rest).length = s.length + 1 + rest.length := by
        simp [Nat.add_comm, Nat.add_assoc, Nat.add_left_comm]
      rw [hn]
      simpa [insertAll] using hready

theorem sortGoNs_nil : sortGoNs [] = [] := rfl

theorem sortGoNs_cons (x : String) (rest : List String) :
    sortGoNs (x :: rest) = insertAll [x] rest := by
  have h := outerNs_insert rest (rest.length + 1) [x] (by omega) (List.sorted_singleton x)
  simpa [sortGoNs, Nat.add_comm] using h

theorem insertAll_sorted : ∀ (rest s : List String),
    List.Sorted (· ≤ ·) s → List.Sorted (· ≤ ·) (insertAll s rest) := by
  intro rest
  induction rest with
  | nil => intro s h; exact h
  | cons x rest ih =>
    intro s h
    exact ih (insertR x s) (insertR_sorted h)

theorem insertAll_perm : ∀ (rest s : List String), List.Perm (insertAll s rest) (s ++ rest) := by
  intro rest
  induction rest with
  | nil => intro s; simp [insertAll]
  | cons x rest ih =>
    intro s
    have h1 : List.Perm (insertAll (insertR x s) rest) (insertR x s ++ rest) := ih (insertR x s)
    have h2 : List.Perm (insertR x s ++ rest) ((x :: s) ++ rest) :=
      (insertR_perm x s).append_right rest
    have h3 : List.Perm (x :: (s ++ rest)) (s ++ x :: rest) := List.perm_middle.symm
    exact (h1.trans h2).trans h3

theorem sortGoNs_sorted (l : List String) : List.Sorted (· ≤ ·) (sortGoNs l) := by
  cases l with
  | nil => simp [sortGoNs_nil]
  | cons x rest =>
    rw [sortGoNs_cons]
    exact insertAll_sorted rest [x] (List.sorted_singleton x)

theorem sortGoNs_perm (l : List String) : List.Perm (sortGoNs l) l := by
  cases l with
  | nil => simp [sortGoNs_nil]
  | cons x rest =>
    rw [sortGoNs_cons]
    exact insertAll_perm rest [x]

/-!
### Claim theorems
-/

theorem parseArgsStep_some {m : Message} {v : List String} (h : m.args = some v) :
    parseArgsStep m = Except.ok m := by
  unfold parseArgsStep
  rw [h]

/-- C1: for a message whose parsed argument vector is non-empty, if exactly
one entry of the set carries the name `args[0]`, `NextCommand` dispatches to
that entry through `runCommandHandler`, even when `args[0]` is a proper
prefix of other registered names (exact match wins over prefix ambiguity). -/
theorem c1_exact_match_dispatch (cs : CommandSet) (ctx : Ctx) (w : responseWriter)
    (m : Message) (a0 : String) (rest : List String) (c : CommandHandler)
    (hargs : m.args = some (a0 :: rest))
    (hexact : cs.filter (fun p => p.1 == a0) = [(a0, c)]) :
    CommandSet.NextCommand cs ctx w m = runCommandHandler ctx c w m := by
  simp only [CommandSet.NextCommand, parseArgsStep_some hargs, hargs, hexact, List.map_cons,
    List.map_nil, List.length_cons, List.length_nil]
  simp

/-- C2: for a message with non-empty parsed vector and no exact name match:
zero prefix matches yield `ErrUnknownCommand`; a unique prefix match
dispatches to it; two or more yield the ambiguous-command error carrying
every matching name. -/
theorem c2_partial_match_resolution (cs : CommandSet) (ctx : Ctx) (w : responseWriter)
    (m : Message) (a0 : String) (rest : List String)
    (hargs : m.args = some (a0 :: rest))
    (hnoexact : cs.filter (fun p => p.1 == a0) = []) :
    (cs.filter (fun p => List.isPrefixOf a0.data p.1.data) = [] →
      CommandSet.NextCommand cs ctx w m = (some HandlerError.unknownCommand, w, m)) ∧
    (∀ (n : String) (c : CommandHandler),
      cs.filter (fun p => List.isPrefixOf a0.data p.1.data) = [(n, c)] →
      CommandSet.NextCommand cs ctx w m = runCommandHandler ctx c w m) ∧
    (2 ≤ (cs.filter (fun p => List.isPrefixOf a0.data p.1.data)).length →
      CommandSet.NextCommand cs ctx w m =
        (some (HandlerError.ambiguousCommand a0
          ((cs.filter (fun p => List.isPrefixOf a0.data p.1.data)).map (fun p => p.1))),
         w, m)) := by
  refine ⟨?_, ?_, ?_⟩
  · intro hzero
    simp only [CommandSet.NextCommand, parseArgsStep_some hargs, hargs, hnoexact, hzero]
    simp
  · intro n c hone
    simp only [CommandSet.NextCommand, parseArgsStep_some hargs, hargs, hnoexact, hone]
    simp
  · intro hmany
    simp only [CommandSet.NextCommand, parseArgsStep_some hargs, hargs, hnoexact]
    simp only [List.map_nil, List.length_nil, List.length_map]
    rw [if_neg (by omega), if_neg (by omega), if_neg (by omega), if_neg (by omega)]

/-- C5: the argument vector is parsed at most once per message: with `args`
already populated the shared parse step leaves the message untouched (it
never re-reads `Text`), and running the parse step twice equals running it
once. -/
theorem c5_idempotent_lazy_parse :
    (∀ (m : Message) (v : List String), m.args = some v → parseArgsStep m = Except.ok m) ∧
    (∀ m m' : Message, parseArgsStep m = Except.ok m' → parseArgsStep m' = Except.ok m') := by
  constructor
  · intro m v h
    exact parseArgsStep_some h
  · intro m m' h
    unfold parseArgsStep at h
    match hm : m.args with
    | some v =>
      rw [hm] at h
      cases h
      exact parseArgsStep_some hm
    | none =>
      rw [hm] at h
      match hp : shellwordsParse m.Text with
      | .ok v =>
        rw [hp] at h
        cases h
        exact parseArgsStep_some rfl
      | .error e =>
        rw [hp] at h
        cases h

/-- C8: one `Write` sends exactly one message — the current template with
`Text` swapped for the written bytes — immediately (the transcript grows by
that single message within the call), returns `(len(bs), nil)`, and leaves
the template and adapter label unchanged. -/
theorem c8_write_one_shot (w : responseWriter) (bs : String) :
    responseWriter.Write w bs =
      ({ w with sent := w.sent ++ [{ w.msg with Text := bs }] }, bs.utf8ByteSize, none) ∧
    (responseWriter.Write w bs).1.msg = w.msg ∧
    (responseWriter.Write w bs).1.an = w.an :=
  ⟨rfl, rfl, rfl⟩

/-- C3: `List` returns the registered command names with a "help" handler
(when present) in the first position and every remaining name after it in
strictly ascending alphabetical order; the remainder is exactly the non-help
names (as a permutation), sorted. -/
theorem c3_list_help_first_sorted (cs : CommandSet) (hwf : CommandSet.WF cs) :
    ∃ r : List String,
      (CommandSet.List cs).1 =
        (if (cs.map (fun p => p.2)).any (fun ch => ch.name == "help")
         then ["help"] else []) ++ r ∧
      List.Sorted (· < ·) r ∧
      List.Perm r (((cs.map (fun p => p.2)).filter (fun ch => ch.name != "help")).map
        (fun ch => ch.name)) := by
  refine ⟨sortGoNs (((cs.map (fun p => p.2)).filter (fun ch => ch.name != "help")).map
    (fun ch => ch.name)), ?_, ?_, sortGoNs_perm _⟩
  · simp only [CommandSet.List]
    by_cases hh : (cs.map (fun p => p.2)).any (fun ch => ch.name == "help")
    · rw [if_pos hh, if_pos hh, sortGo_ns]
      rfl
    · rw [if_neg hh, if_neg hh, sortGo_ns]
      rfl
  · have h1 : List.Sublist
        ((((cs.map (fun p => p.2)).filter (fun ch => ch.name != "help")).map
          (fun ch => ch.name)))
        ((cs.map (fun p => p.2)).map (fun ch => ch.name)) :=
      ((cs.map (fun p => p.2)).filter_sublist).map _
    have h2 : (cs.map (fun p => p.2)).map (fun ch => ch.name) = cs.map (fun p => p.1) := by
      rw [List.map_map]
      exact List.map_congr_left (fun p hp => hwf.2 p hp)
    have hnd : (((cs.map (fun p => p.2)).filter (fun ch => ch.name != "help")).map
        (fun ch => ch.name)).Nodup := (h2 ▸ h1).nodup hwf.1
    exact (sortGoNs_sorted _).lt_of_le (((sortGoNs_perm _).nodup_iff).2 hnd)

/-- C4: a message with unset argument vector is tokenized with the
shell-words rules on the command path: `say "hello world"` yields the
two-token vector, an unterminated quote is a tokenization failure, and on
any failing `Text` both `runCommandHandler` (for every handler) and
`NextCommand` (for every set) return `ErrBadCLI` with the writer and message
untouched — no handler body runs. -/
theorem c4_tokenize_and_badcli :
    shellwordsParse "say \"hello world\"" = Except.ok ["say", "hello world"] ∧
    shellwordsParse "say \"unterminated" = Except.error "invalid command line string" ∧
    (∀ (ctx : Ctx) (h : CommandHandler) (w : responseWriter) (m : Message) (e : String),
      m.args = none → shellwordsParse m.Text = Except.error e →
      runCommandHandler ctx h w m = (some HandlerError.badCLI, w, m) ∧
      ∀ cs : CommandSet, CommandSet.NextCommand cs ctx w m =
        (some HandlerError.badCLI, w, m)) := by
  refine ⟨rfl, rfl, ?_⟩
  intro ctx h w m e hnone herr
  have hp : parseArgsStep m = Except.error HandlerError.badCLI := by
    unfold parseArgsStep
    rw [hnone, herr]
  constructor
  · simp only [runCommandHandler, hp]
  · intro cs
    simp only [CommandSet.NextCommand, hp]

/-- C6: the invocation wrapper turns a handler's help-requested error into a
usage message written to the response writer plus the `ErrSkipHears` signal,
and passes any other handler result through unchanged. -/
theorem c6_errhelp_to_usage (ctx : Ctx) (h : CommandHandler) (w : responseWriter)
    (m : Message) (a0 : String) (rest : List String)
    (res : Option HandlerError × responseWriter × Message)
    (hargs : m.args = some (a0 :: rest))
    (hres : h.command ctx w { m with flagOut := some "", flagSetName := some a0 } = res) :
    runCommandHandler ctx h w m =
      if res.1 = some HandlerError.errHelp then
        (some HandlerError.skipHears,
         (responseWriter.Write res.2.1 (cmdUsage h a0)).1, res.2.2)
      else res := by
  simp only [hargs] at hres
  simp only [runCommandHandler, parseArgsStep_some hargs, hargs, hres]

/-- C7: a handler built with `NewCommandHandler` returns the wrapped
function's result unchanged whenever it is not the defer-to-sub-command
sentinel; on the sentinel it immediately resolves the same message, with the
carried context, against its own sub-command set. -/
theorem c7_next_command_sentinel (f : CommandFunc) (subs : CommandSet)
    (name desc : String) (ctx : Ctx) (w : responseWriter) (m : Message)
    (res : Option HandlerError × responseWriter × Message)
    (hres : f ctx w m = res) :
    baseCommandHandler.Command (NewCommandHandler name desc (some f) subs) ctx w m =
      match res.1 with
      | some (.nextCommand ctx2) => CommandSet.NextCommand subs ctx2 res.2.1 res.2.2
      | _ => res := by
  simp only [baseCommandHandler.Command, NewCommandHandler, Option.getD_some, hres]

theorem runRawHandler_ok (rh : PRawHandler) (m : Message) :
    runRawHandler rh m = HOutcome.ok false := by
  unfold runRawHandler
  cases rh.process m <;> rfl

theorem runCommandHandlerPanicWrap_ok (ch : PCommandHandler) (m : Message) :
    runCommandHandlerPanicWrap ch m = HOutcome.ok ((ch.command m).valD none) := by
  unfold runCommandHandlerPanicWrap
  cases ch.command m <;> rfl

theorem runBackgroundHandler_ok (bh : PBackgroundHandler) :
    runBackgroundHandler bh = HOutcome.ok () := by
  unfold runBackgroundHandler
  cases hs : bh.start with
  | ok a => cases a; rfl
  | panicked e => rfl

theorem processMessageP_ok (h : PDispatchHandler) (m : Message)
    (hp : ∀ hh, h.hears = some hh → ∀ mt, hh.hearsMatch m.Text = some mt →
      ∃ u, hh.heard m mt = HOutcome.ok u) :
    processMessageP h m = HOutcome.ok (processMessageOk h m) := by
  unfold processMessageP processMessageOk
  cases hraw : h.raw with
  | none =>
    cases hhe : h.hears with
    | none =>
      cases hc : h.cmd with
      | none => simp
      | some ch => simp [runCommandHandlerPanicWrap_ok, HOutcome.valD]
    | some hh =>
      cases hm : hh.hearsMatch m.Text with
      | none =>
        cases hc : h.cmd with
        | none => simp [runHearsHandler, hm, deferGlogPanic]
        | some ch => simp [runHearsHandler, hm, deferGlogPanic, runCommandHandlerPanicWrap_ok, HOutcome.valD]
      | some mt =>
        obtain ⟨u, hu⟩ := hp hh hhe mt hm
        cases hc : h.cmd with
        | none => simp [runHearsHandler, hm, hu, deferGlogPanic]
        | some ch =>
          simp [runHearsHandler, hm, hu, deferGlogPanic, runCommandHandlerPanicWrap_ok,
            HOutcome.valD]
  | some rh =>
    cases hhe : h.hears with
    | none =>
      cases hc : h.cmd with
      | none => simp [runRawHandler_ok]
      | some ch => simp [runRawHandler_ok, runCommandHandlerPanicWrap_ok, HOutcome.valD]
    | some hh =>
      cases hm : hh.hearsMatch m.Text with
      | none =>
        cases hc : h.cmd with
        | none => simp [runRawHandler_ok, runHearsHandler, hm, deferGlogPanic]
        | some ch =>
          simp [runRawHandler_ok, runHearsHandler, hm, deferGlogPanic,
            runCommandHandlerPanicWrap_ok, HOutcome.valD]
      | some mt =>
        obtain ⟨u, hu⟩ := hp hh hhe mt hm
        cases hc : h.cmd with
        | none => simp [runRawHandler_ok, runHearsHandler, hm, hu, deferGlogPanic]
        | some ch =>
          simp [runRawHandler_ok, runHearsHandler, hm, hu, deferGlogPanic,
            runCommandHandlerPanicWrap_ok, HOutcome.valD]

/-- C9 (amended): a panic inside a Raw, Command or Background handler body is
caught at its invocation boundary (the deferred recovery) and converted to a
normal zero-value return; provided no Hears handler's `Heard` body panics on
the inbound messages — that body runs in a separately spawned task outside
any recovery scope — the dispatch loop processes every message, with each
capability's result computed independently per message. -/
theorem c9_panic_containment_amended :
    (∀ (rh : PRawHandler) (m : Message), runRawHandler rh m = HOutcome.ok false) ∧
    (∀ (ch : PCommandHandler) (m : Message),
      runCommandHandlerPanicWrap ch m = HOutcome.ok ((ch.command m).valD none)) ∧
    (∀ bh : PBackgroundHandler, runBackgroundHandler bh = HOutcome.ok ()) ∧
    (∀ (h : PDispatchHandler) (ms : List Message),
      (∀ hh, h.hears = some hh → ∀ m ∈ ms, ∀ mt, hh.hearsMatch m.Text = some mt →
        ∃ u, hh.heard m mt = HOutcome.ok u) →
      loopP h ms = HOutcome.ok (ms.map (processMessageOk h))) := by
  refine ⟨runRawHandler_ok, runCommandHandlerPanicWrap_ok, runBackgroundHandler_ok, ?_⟩
  intro h ms
  induction ms with
  | nil => intro _; rfl
  | cons m ms ih =>
    intro hp
    have h1 : processMessageP h m = HOutcome.ok (processMessageOk h m) :=
      processMessageP_ok h m (fun hh hhe mt hm => hp hh hhe m (List.mem_cons_self m ms) mt hm)
    have h2 := ih (fun hh hhe m' hm' mt hm => hp hh hhe m' (List.mem_cons_of_mem m hm') mt hm)
    simp only [loopP, h1, h2, List.map_cons]

/-!
### Concrete instances for the claims
-/

def emptyMsg : Message := ⟨"", "", "", "", false, false, "", none, none, none⟩

def mkMsg (t : String) : Message := ⟨"", "", "", "", false, false, t, none, none, none⟩

def mkArgsMsg (a : List String) : Message :=
  ⟨"", "", "", "", false, false, "", some a, none, none⟩

def w0 : responseWriter := ⟨emptyMsg, "adapterA", []⟩

def hDelete : CommandHandler :=
  ⟨"delete", "remove a thing", fun _ w m => (none, (responseWriter.Write w "deleted").1, m)⟩

def hDeploy : CommandHandler :=
  ⟨"deploy", "roll a thing out", fun _ w m => (none, (responseWriter.Write w "deployed").1, m)⟩

def hHelp : CommandHandler := ⟨"help", "show help", fun _ w m => (none, w, m)⟩

def csDelDep : CommandSet := [("delete", hDelete), ("deploy", hDeploy)]

def csHelp3 : CommandSet := [("deploy", hDeploy), ("help", hHelp), ("delete", hDelete)]

theorem c1_witness :
    CommandSet.NextCommand csDelDep 0 w0 (mkArgsMsg ["delete"]) =
      runCommandHandler 0 hDelete w0 (mkArgsMsg ["delete"]) :=
  c1_exact_match_dispatch csDelDep 0 w0 (mkArgsMsg ["delete"]) "delete" [] hDelete rfl rfl

theorem c2_witness :
    CommandSet.NextCommand csDelDep 0 w0 (mkArgsMsg ["de"]) =
      (some (HandlerError.ambiguousCommand "de" ["delete", "deploy"]), w0,
       mkArgsMsg ["de"]) :=
  (c2_partial_match_resolution csDelDep 0 w0 (mkArgsMsg ["de"]) "de" [] rfl rfl).2.2
    (by decide)

theorem c3_witness :
    ∃ r : List String,
      (CommandSet.List csHelp3).1 =
        (if (csHelp3.map (fun p => p.2)).any (fun ch => ch.name == "help")
         then ["help"] else []) ++ r ∧
      List.Sorted (· < ·) r ∧
      List.Perm r (((csHelp3.map (fun p => p.2)).filter (fun ch => ch.name != "help")).map
        (fun ch => ch.name)) :=
  c3_list_help_first_sorted csHelp3 ⟨by decide, by decide⟩

def mBad : Message := mkMsg "say \"unterminated"

theorem c4_witness :
    runCommandHandler 0 hDelete w0 mBad = (some HandlerError.badCLI, w0, mBad) ∧
    CommandSet.NextCommand csDelDep 0 w0 mBad = (some HandlerError.badCLI, w0, mBad) :=
  ⟨(c4_tokenize_and_badcli.2.2 0 hDelete w0 mBad "invalid command line string" rfl rfl).1,
   (c4_tokenize_and_badcli.2.2 0 hDelete w0 mBad "invalid command line string" rfl rfl).2
     csDelDep⟩

def mPreParsed : Message :=
  ⟨"", "", "", "", false, false, "say \"unterminated", some ["say"], none, none⟩

theorem c5_witness : parseArgsStep mPreParsed = Except.ok mPreParsed :=
  c5_idempotent_lazy_parse.1 mPreParsed ["say"] rfl

def hHelpReq : CommandHandler :=
  ⟨"hr", "requests help", fun _ w m => (some HandlerError.errHelp, w, m)⟩

theorem c6_witness :
    runCommandHandler 0 hHelpReq w0 (mkArgsMsg ["hr"]) =
      (some HandlerError.skipHears,
       (responseWriter.Write w0 (cmdUsage hHelpReq "hr")).1,
       { mkArgsMsg ["hr"] with flagOut := some "", flagSetName := some "hr" }) := by
  have h := c6_errhelp_to_usage 0 hHelpReq w0 (mkArgsMsg ["hr"]) "hr" []
    (some HandlerError.errHelp, w0,
     { mkArgsMsg ["hr"] with flagOut := some "", flagSetName := some "hr" }) rfl rfl
  simpa using h

def fNext : CommandFunc := fun ctx w m => (some (HandlerError.nextCommand ctx), w, m)

theorem c7_witness :
    baseCommandHandler.Command (NewCommandHandler "top" "top level" (some fNext) []) 0 w0
      (mkArgsMsg ["sub"]) = (some HandlerError.unknownCommand, w0, mkArgsMsg ["sub"]) := by
  have h := c7_next_command_sentinel fNext [] "top" "top level" 0 w0 (mkArgsMsg ["sub"])
    (some (HandlerError.nextCommand 0), w0, mkArgsMsg ["sub"]) rfl
  rw [h]
  decide

def hearsPing : PHearsHandler :=
  ⟨fun t => if t == "ping" then some [["ping"]] else none,
   fun _ _ => HOutcome.panicked "boom"⟩

def panicDispatch : PDispatchHandler := ⟨none, some hearsPing, none⟩

/-- C9 counterexample: a Hears handler whose `Heard` body panics.  `Heard`
runs in a task spawned from inside `runHearsHandler`, outside that wrapper's
deferred recovery, so the panic is not caught, the dispatch run aborts, and
the second message is never processed — against the claim that a panic in
any handler body is converted to a normal return and a later message on the
same adapter is still processed. -/
theorem c9_counterexample :
    loopP panicDispatch [mkMsg "ping", mkMsg "hello"] = HOutcome.panicked "boom" := rfl

def rawPanicky : PRawHandler := ⟨fun _ => HOutcome.panicked "raw boom"⟩

def cmdPanicky : PCommandHandler := ⟨fun _ => HOutcome.panicked "cmd boom"⟩

def containedDispatch : PDispatchHandler := ⟨some rawPanicky, none, some cmdPanicky⟩

theorem c9_witness :
    loopP containedDispatch [mkMsg "a", mkMsg "b"] =
      HOutcome.ok [⟨some false, none, some none⟩, ⟨some false, none, some none⟩] := by
  have h := c9_panic_containment_amended.2.2.2 containedDispatch [mkMsg "a", mkMsg "b"]
    (fun hh hc => nomatch hc)
  exact h

def haSwap : CommandHandler := ⟨"a", "da", fun _ w m => (none, w, m)⟩

def hbSwap : CommandHandler := ⟨"b", "db", fun _ w m => (none, w, m)⟩

def csSwapBug : CommandSet := [("b", hbSwap), ("a", haSwap)]

/-- C10: at the iteration order [("b", …), ("a", …)] the sort performs one
swap; the returned names are ["a", "b"] and the handler slice stays aligned
([haSwap, hbSwap]), but the description slice comes back as ["da", "a"]:
position 1 holds the *name* "a" instead of "db", the description of the
handler named "b", because `byAlpha.Swap`'s middle assignment reads the
already-swapped name slice instead of the description slice. -/
theorem c10_descriptions_misaligned :
    (CommandSet.List csSwapBug).1 = ["a", "b"] ∧
    (CommandSet.List csSwapBug).2.1 = ["da", "a"] ∧
    (CommandSet.List csSwapBug).2.2 = [haSwap, hbSwap] ∧
    hbSwap.desc = "db" :=
  ⟨rfl, rfl, rfl, rfl⟩
